import Mathlib

/-!
Shallow embedding of the pixel compositing and encoding pipeline of
`src/main.rs` (function `render_chunked` and the values it passes to the
JPEG encoder), together with theorems about the specification's claims.

The per-pixel conversion in `render_chunked` is performed in IEEE-754
binary32 (`f32`) arithmetic:

```rust
let alpha = ((pixel >> 24) & 0xFF) as f32 / 255.0;
if alpha == 0.0 { return [0u8, 0u8, 0u8]; }
[ (((pixel >> 16) & 0xFF) as f32 / alpha).min(255.0) as u8,
  (((pixel >> 8) & 0xFF) as f32 / alpha).min(255.0) as u8,
  ((pixel & 0xFF) as f32 / alpha).min(255.0) as u8 ]
```

Every `f32` value arising here is nonnegative and either zero or normal
(magnitude in `[2^-9, 2^17)`), so each of the two divisions is exactly
"round the exact rational quotient to the nearest 24-bit significand, ties
to even"; no overflow, underflow or NaN can occur.  We therefore model an
`f32` value by an exact pair `(m, s) : ℕ × ℕ` denoting the rational
`m / 2^s`, and `fl32Frac n d` computes the correctly rounded binary32 value
of the exact quotient `n / d` in this representation.  The integer casts in
the Rust code are exact (`a as f32` for `a ≤ 255`), `.min(255.0)` is an
exact comparison, and `as u8` on a nonnegative `f32` that is at most 255
truncates toward zero.
-/

namespace Lavie

/-- Binary digit count for `n < 4`, the base of the chunked scan below. -/
def bl2 (n : ℕ) : ℕ := if n < 2 then n else 2

/-- One doubling step of the binary digit count: if `g` is the digit count
below `2 ^ k`, then `blStep k g` is the digit count below `2 ^ (k + k)`. -/
def blStep (k : ℕ) (g : ℕ → ℕ) (n : ℕ) : ℕ :=
  if n < 2 ^ k then g n else k + g (n >>> k)

/-- Digit count for `n < 16`. -/
def bl4 : ℕ → ℕ := blStep 2 bl2

/-- Digit count for `n < 256`. -/
def bl8 : ℕ → ℕ := blStep 4 bl4

/-- Digit count for `n < 2 ^ 16`. -/
def bl16 : ℕ → ℕ := blStep 8 bl8

/-- Digit count for `n < 2 ^ 32`. -/
def bl32 : ℕ → ℕ := blStep 16 bl16

/-- Digit count for `n < 2 ^ 64`. -/
def bl64 : ℕ → ℕ := blStep 32 bl32

/-- Binary digit count of a natural number below `2 ^ 128` (`0` for `0`),
which covers every number taken apart by the floating-point model below. -/
def bitLen : ℕ → ℕ := blStep 64 bl64

/-- The exponent field of the binary32 value of `n / d`: the result is
scaled by `2 ^ fl32Exp n d`.  `bitLen ((n <<< 40) / d) - 1 - 40` is the
floor of the base-2 logarithm of `n / d`, and the significand lives in
`[2 ^ 23, 2 ^ 24)`, whence the `63 -`. -/
def fl32Exp (n d : ℕ) : ℕ := 63 - (bitLen ((n <<< 40) / d) - 1)

/-- Round the exact quotient `num / d` to an integer, to nearest with ties
to even — the IEEE-754 default rounding applied to the scaled
significand. -/
def roundEven (num d : ℕ) : ℕ :=
  if d < 2 * (num % d) then num / d + 1
  else if 2 * (num % d) < d then num / d
  else if num / d % 2 = 0 then num / d else num / d + 1

/-- Correctly rounded IEEE-754 binary32 value (round to nearest, ties to
even) of the exact rational `n / d`, returned as a pair `(m, s)` denoting
`m / 2^s`.  `m` is the 24-bit significand (or `2 ^ 24` after a carry
across the binade, which denotes the same value).  No overflow or
subnormal handling is needed: every quotient the program takes lies well
inside the normal range. -/
def fl32Frac (n d : ℕ) : ℕ × ℕ := (roundEven (n <<< fl32Exp n d) d, fl32Exp n d)

/-- The per-channel computation of `render_chunked` for alpha byte `a` with
`1 ≤ a ≤ 255` and premultiplied channel byte `c`: the `f32` evaluation of
`(c as f32 / (a as f32 / 255.0)).min(255.0) as u8`.  `alpha` is the
binary32 value of `a / 255`; dividing the exact integer `c` by it is
dividing the exact fraction `c * 2^alpha.2` by `alpha.1`, rounded again to
binary32.  For `c = 0` the quotient is exactly zero.  `as u8` truncates the
nonnegative result toward zero, and `.min(255.0)` commutes with that
truncation. -/
def chan (a c : ℕ) : ℕ :=
  let alpha := fl32Frac a 255
  if c = 0 then 0
  else
    let v := fl32Frac (c <<< alpha.2) alpha.1
    min 255 (v.1 >>> v.2)

/-- One pixel of `render_chunked`'s `flat_map` closure: a packed ARGB word
`(a << 24) | (r << 16) | (g << 8) | b` becomes the three straight-alpha
bytes `[r, g, b]`.  The Rust code tests `alpha == 0.0`; the binary32 value
of `a / 255.0` is zero exactly when the alpha byte `a` is zero (for
`a ≥ 1` it is at least `2^-9`), so that test is the test
`(pixel >> 24) & 0xFF = 0`. -/
def convertPixel (pixel : ℕ) : List ℕ :=
  if (pixel >>> 24) &&& 255 = 0 then [0, 0, 0]
  else [chan ((pixel >>> 24) &&& 255) ((pixel >>> 16) &&& 255),
        chan ((pixel >>> 24) &&& 255) ((pixel >>> 8) &&& 255),
        chan ((pixel >>> 24) &&& 255) (pixel &&& 255)]

/-- The converted pixel buffer: `render_chunked`'s
`par_iter().flat_map(...).collect::<Vec<u8>>()` over the framebuffer
words, written as the order-preserving sequential map that rayon's indexed
parallel iterator is documented to refine (collection is in input order). -/
def renderData (buf : List ℕ) : List ℕ :=
  (buf.map convertPixel).flatten

/-- A parallel execution of the conversion: the input is split into an
arbitrary list of chunks (one per worker, any sizes), each worker converts
its chunk independently, and the per-worker outputs are concatenated in
input order.  This models an arbitrary partition of the `par_iter` work
across rayon workers. -/
def parRenderData (chunks : List (List ℕ)) : List ℕ :=
  (chunks.map renderData).flatten

/-- The straight channel as the specification words it (spec §8,
"Un-premultiply correctness"): `round(c * 255 / a)` clamped to 255, with
rounding half away from zero.  This is the spec-side definition used to
compare the code's channel against the claimed formula. -/
def specRoundChannel (a c : ℕ) : ℕ :=
  min 255 ((2 * (c * 255) + a) / (2 * a))

/-- Errors of the encoding stage, following the spec's §7 taxonomy. -/
inductive EncodeError where
  | dimensionMismatch : EncodeError
  | encodeFailure : EncodeError
  | sinkWriteFailure : EncodeError
deriving DecidableEq

/-- Configuration state of the external `jpeg_encoder::Encoder` as far as
this program drives it: the quality passed to `Encoder::new` and the
optimized-Huffman-tables flag. -/
structure EncoderCfg where
  quality : ℕ
  optimizedHuffman : Bool
deriving DecidableEq

/-- Modelled from the spec: `Encoder::new(w, quality)` of the external
`jpeg_encoder` crate stores the caller's quality verbatim and starts from
the fixed generic entropy tables (spec §4.2 contrasts the optimized tables
the program turns on with the default "fixed generic tables"). -/
def encoderNew (quality : ℕ) : EncoderCfg := ⟨quality, false⟩

/-- `encoder.set_optimized_huffman_tables(b)`: flips only the table flag. -/
def setOptimizedHuffmanTables (cfg : EncoderCfg) (b : Bool) : EncoderCfg :=
  { cfg with optimizedHuffman := b }

/-- Modelled from the spec: `Encoder::encode(data, w, h, ColorType::Rgb)`
of the external `jpeg_encoder` crate.  Per spec §4.2/§7 it requires
`data.len() == w * h * 3` and surfaces a mismatch immediately as
`DimensionMismatch`, without writing to the sink; on success the complete
encoded stream is written.  The compressed bytes themselves are outside
the spec, so the encoding proper is an arbitrary function `stream` of
everything the encoder sees; the second component of the result is the
byte trace written to the sink. -/
def encodeModel (stream : EncoderCfg → ℕ → ℕ → List ℕ → List ℕ)
    (cfg : EncoderCfg) (data : List ℕ) (w h : ℕ) :
    Except EncodeError Unit × List ℕ :=
  if data.length = w * h * 3 then (Except.ok (), stream cfg w h data)
  else (Except.error EncodeError.dimensionMismatch, [])

/-- The Rust cast `as u16` on a nonnegative width or height: reduction
modulo `2^16`, as applied at `encoder.encode(&data, width as u16,
height as u16, ColorType::Rgb)`. -/
def castU16 (n : ℕ) : ℕ := n % 65536

/-- The encoder configuration `render_chunked` builds before encoding:
`Encoder::new(w, quality)` followed by the unconditional
`encoder.set_optimized_huffman_tables(true)`. -/
def renderChunkedCfg (quality : ℕ) : EncoderCfg :=
  setOptimizedHuffmanTables (encoderNew quality) true

/-- `render_chunked(w, dt, quality)` over a framebuffer of `w * h` words:
convert all pixels, then encode the converted bytes with the declared
dimensions narrowed by `as u16`.  The result is the encoder outcome
together with the bytes written to the sink. -/
def renderChunked (stream : EncoderCfg → ℕ → ℕ → List ℕ → List ℕ)
    (buf : List ℕ) (w h quality : ℕ) : Except EncodeError Unit × List ℕ :=
  encodeModel stream (renderChunkedCfg quality) (renderData buf)
    (castU16 w) (castU16 h)

/-- Correctness contract for a digit-count function valid below `2 ^ k`. -/
abbrev BLOk (k : ℕ) (g : ℕ → ℕ) : Prop :=
  g 0 = 0 ∧ (∀ m, m < 2 ^ k → g m ≤ k) ∧
    ∀ m, 1 ≤ m → m < 2 ^ k → 2 ^ (g m - 1) ≤ m ∧ m < 2 ^ g m

/-! Correctness of the digit count, the rounding step, and the binary32
model, leading to the analytic bound on the un-premultiplied channel. -/

lemma bl2_ok : BLOk 2 bl2 := by decide

lemma blStep_ok {k : ℕ} {g : ℕ → ℕ} (h : BLOk k g) : BLOk (k + k) (blStep k g) := by
  obtain ⟨hg0, hgle, hg⟩ := h
  have hkpos : 0 < 2 ^ k := Nat.pos_pow_of_pos k (by omega)
  refine ⟨?_, ?_, ?_⟩
  · unfold blStep
    rw [if_pos hkpos, hg0]
  · intro m hm
    unfold blStep
    split
    · exact le_trans (hgle m (by assumption)) (by omega)
    · have hdiv : m >>> k < 2 ^ k := by
        rw [Nat.shiftRight_eq_div_pow]
        rw [Nat.div_lt_iff_lt_mul hkpos, ← pow_add]
        exact hm
      have := hgle _ hdiv
      omega
  · intro m hm1 hm2
    unfold blStep
    split
    · exact hg m hm1 (by assumption)
    · rename_i hnlt
      have h2k : 2 ^ k ≤ m := le_of_not_lt hnlt
      have hdivlt : m >>> k < 2 ^ k := by
        rw [Nat.shiftRight_eq_div_pow]
        rw [Nat.div_lt_iff_lt_mul hkpos, ← pow_add]
        exact hm2
      have hdivge : 1 ≤ m >>> k := by
        rw [Nat.shiftRight_eq_div_pow]
        exact (Nat.one_le_div_iff hkpos).2 h2k
      obtain ⟨hl, hu⟩ := hg _ hdivge hdivlt
      have hgpos : 1 ≤ g (m >>> k) := by
        by_contra hcon
        have hz : g (m >>> k) = 0 := by omega
        rw [hz] at hu
        omega
      constructor
      · have hexp : k + g (m >>> k) - 1 = k + (g (m >>> k) - 1) := by omega
        rw [hexp, pow_add]
        calc 2 ^ k * 2 ^ (g (m >>> k) - 1) ≤ 2 ^ k * (m >>> k) :=
              Nat.mul_le_mul_left _ hl
          _ = m >>> k * 2 ^ k := by ring
          _ ≤ m := by rw [Nat.shiftRight_eq_div_pow]; exact Nat.div_mul_le_self m _
      · rw [pow_add]
        have hmod : m < 2 ^ k * (m >>> k) + 2 ^ k := by
          rw [Nat.shiftRight_eq_div_pow]
          have hdm := Nat.div_add_mod m (2 ^ k)
          have hml := Nat.mod_lt m hkpos
          omega
        calc m < 2 ^ k * (m >>> k) + 2 ^ k := hmod
          _ = 2 ^ k * (m >>> k + 1) := by ring
          _ ≤ 2 ^ k * 2 ^ g (m >>> k) := Nat.mul_le_mul_left _ hu

lemma bitLen_ok : BLOk 128 bitLen :=
  blStep_ok (blStep_ok (blStep_ok (blStep_ok (blStep_ok (blStep_ok bl2_ok)))))

lemma bitLen_bounds (n : ℕ) (h1 : 1 ≤ n) (h2 : n < 2 ^ 128) :
    2 ^ (bitLen n - 1) ≤ n ∧ n < 2 ^ bitLen n :=
  bitLen_ok.2.2 n h1 h2

lemma bitLen_pos (n : ℕ) (h1 : 1 ≤ n) (h2 : n < 2 ^ 128) : 1 ≤ bitLen n := by
  obtain ⟨-, hu⟩ := bitLen_bounds n h1 h2
  by_contra hcon
  have hz : bitLen n = 0 := by omega
  rw [hz] at hu
  omega

lemma roundEven_err (num d : ℕ) (hd : 1 ≤ d) :
    2 * roundEven num d * d ≤ 2 * num + d ∧ 2 * num ≤ 2 * roundEven num d * d + d := by
  have hdm := Nat.div_add_mod num d
  have hml : num % d < d := Nat.mod_lt num (by omega)
  have hup : ∀ hle : d ≤ 2 * (num % d),
      2 * (num / d + 1) * d ≤ 2 * num + d ∧ 2 * num ≤ 2 * (num / d + 1) * d + d := by
    intro hle
    constructor
    · calc 2 * (num / d + 1) * d = 2 * (d * (num / d)) + 2 * d := by ring
        _ ≤ 2 * (d * (num / d)) + 2 * (num % d) + d := by omega
        _ = 2 * (d * (num / d) + num % d) + d := by ring
        _ = 2 * num + d := by rw [hdm]
    · calc 2 * num = 2 * (d * (num / d) + num % d) := by rw [hdm]
        _ = 2 * (d * (num / d)) + 2 * (num % d) := by ring
        _ ≤ 2 * (d * (num / d)) + 2 * d := by omega
        _ = 2 * (num / d + 1) * d := by ring
        _ ≤ 2 * (num / d + 1) * d + d := by omega
  have hdown : ∀ hle : 2 * (num % d) ≤ d,
      2 * (num / d) * d ≤ 2 * num + d ∧ 2 * num ≤ 2 * (num / d) * d + d := by
    intro hle
    constructor
    · calc 2 * (num / d) * d = 2 * (d * (num / d)) := by ring
        _ ≤ 2 * (d * (num / d) + num % d) := by omega
        _ = 2 * num := by rw [hdm]
        _ ≤ 2 * num + d := by omega
    · calc 2 * num = 2 * (d * (num / d) + num % d) := by rw [hdm]
        _ = 2 * (d * (num / d)) + 2 * (num % d) := by ring
        _ ≤ 2 * (d * (num / d)) + d := by omega
        _ = 2 * (num / d) * d + d := by ring
  unfold roundEven
  split_ifs with h1 h2 h3
  · exact hup (by omega)
  · exact hdown (by omega)
  · exact hdown (by omega)
  · exact hup (by omega)

/-- Bracket and half-ulp rounding bound for the binary32 model: the scaled
numerator `n * 2 ^ s` lies in `[2^23 * d, 2^24 * d)` (so the significand is
normalized), and the significand approximates it by at most half a unit:
`|2 * m * d - 2 * (n * 2 ^ s)| ≤ d`. -/
lemma fl32Frac_spec (n d : ℕ) (_hn : 1 ≤ n) (hd : 1 ≤ d)
    (hlow : d ≤ n * 2 ^ 40) (hhigh : n * 2 ^ 40 < d * 2 ^ 64) (hsz : n * 2 ^ 40 < 2 ^ 128) :
    2 ^ 23 * d ≤ n * 2 ^ (fl32Frac n d).2 ∧
      n * 2 ^ (fl32Frac n d).2 < 2 ^ 24 * d ∧
      2 * (fl32Frac n d).1 * d ≤ 2 * (n * 2 ^ (fl32Frac n d).2) + d ∧
      2 * (n * 2 ^ (fl32Frac n d).2) ≤ 2 * (fl32Frac n d).1 * d + d := by
  have hdpos : 0 < d := hd
  have hshift : n <<< 40 = n * 2 ^ 40 := Nat.shiftLeft_eq n 40
  set N := n * 2 ^ 40 with hN
  set k := N / d with hk
  have hk1 : 1 ≤ k := (Nat.one_le_div_iff hdpos).2 hlow
  have hk128 : k < 2 ^ 128 := lt_of_le_of_lt (Nat.div_le_self N d) hsz
  obtain ⟨hbl, hbu⟩ := bitLen_bounds k hk1 hk128
  have hbpos : 1 ≤ bitLen k := bitLen_pos k hk1 hk128
  set B := bitLen k with hB
  have hk64 : k < 2 ^ 64 := by
    rw [hk, Nat.div_lt_iff_lt_mul hdpos]
    calc N < d * 2 ^ 64 := hhigh
      _ = 2 ^ 64 * d := by ring
  have hE63 : B - 1 ≤ 63 := by
    by_contra hcon
    have h64le : 64 ≤ B - 1 := by omega
    have : (2 : ℕ) ^ 64 ≤ 2 ^ (B - 1) := Nat.pow_le_pow_right (by omega) h64le
    omega
  have hexp : (fl32Frac n d).2 = 63 - (B - 1) := by
    show fl32Exp n d = 63 - (B - 1)
    unfold fl32Exp
    rw [hshift]
  set s := 63 - (B - 1) with hs
  have hEs : B - 1 + s = 63 := by omega
  have hNlow : 2 ^ (B - 1) * d ≤ N := by
    calc 2 ^ (B - 1) * d ≤ k * d := Nat.mul_le_mul_right d hbl
      _ ≤ N := by rw [hk]; exact Nat.div_mul_le_self N d
  have hNhigh : N < 2 ^ (B - 1 + 1) * d := by
    have hdm := Nat.div_add_mod N d
    have hml : N % d < d := Nat.mod_lt N hdpos
    have hk1' : k + 1 ≤ 2 ^ B := hbu
    have hBe : B - 1 + 1 = B := by omega
    rw [hBe]
    calc N = d * k + N % d := by rw [hk]; omega
      _ < d * k + d := by omega
      _ = (k + 1) * d := by ring
      _ ≤ 2 ^ B * d := Nat.mul_le_mul_right d hk1'
  have hscaled_low : 2 ^ 23 * d ≤ n * 2 ^ s := by
    have h1 : 2 ^ (B - 1) * d * 2 ^ s ≤ N * 2 ^ s := Nat.mul_le_mul_right _ hNlow
    have h2 : 2 ^ (B - 1) * d * 2 ^ s = 2 ^ 63 * d := by
      rw [show 2 ^ (B - 1) * d * 2 ^ s = 2 ^ (B - 1) * 2 ^ s * d by ring, ← pow_add, hEs]
    have h3 : N * 2 ^ s = n * 2 ^ s * 2 ^ 40 := by rw [hN]; ring
    have h4 : (2 : ℕ) ^ 63 * d = 2 ^ 23 * d * 2 ^ 40 := by ring
    rw [h2, h3, h4] at h1
    exact Nat.le_of_mul_le_mul_right h1 (by positivity)
  have hscaled_high : n * 2 ^ s < 2 ^ 24 * d := by
    have h1 : N * 2 ^ s < 2 ^ (B - 1 + 1) * d * 2 ^ s :=
      (Nat.mul_lt_mul_right (by positivity)).2 hNhigh
    have h2 : 2 ^ (B - 1 + 1) * d * 2 ^ s = 2 ^ 64 * d := by
      rw [show 2 ^ (B - 1 + 1) * d * 2 ^ s = 2 ^ (B - 1 + 1) * 2 ^ s * d by ring, ← pow_add]
      have h641 : B - 1 + 1 + s = 64 := by omega
      rw [h641]
    have h3 : N * 2 ^ s = n * 2 ^ s * 2 ^ 40 := by rw [hN]; ring
    have h4 : (2 : ℕ) ^ 64 * d = 2 ^ 24 * d * 2 ^ 40 := by ring
    rw [h2, h3, h4] at h1
    exact (Nat.mul_lt_mul_right (show 0 < 2 ^ 40 by positivity)).1 h1
  have hmant : (fl32Frac n d).1 = roundEven (n * 2 ^ s) d := by
    show roundEven (n <<< fl32Exp n d) d = roundEven (n * 2 ^ s) d
    rw [Nat.shiftLeft_eq]
    have hfe : fl32Exp n d = s := hexp
    rw [hfe]
  obtain ⟨hr1, hr2⟩ := roundEven_err (n * 2 ^ s) d hd
  rw [hexp, hmant]
  exact ⟨hscaled_low, hscaled_high, hr1, hr2⟩

lemma chan_eq (a c : ℕ) (hc : c ≠ 0) :
    chan a c = min 255 ((fl32Frac (c <<< (fl32Frac a 255).2) (fl32Frac a 255).1).1 >>>
      (fl32Frac (c <<< (fl32Frac a 255).2) (fl32Frac a 255).1).2) := by
  simp [chan, hc]

/-- The analytic error bound on the channel conversion: for every alpha
byte `a ∈ [1, 255]` and premultiplied channel `c ≤ a`, the emitted byte is
`round(c * 255 / a)` clamped to 255, or exactly one below it.  The two
binary32 roundings perturb the exact quotient by a relative error below
`2^-22`, far less than the slack `1/4`, and truncation then lands on the
rounded value or one short of it. -/
lemma chan_near_round (a c : ℕ) (h1 : 1 ≤ a) (ha : a ≤ 255) (hc : c ≤ a) :
    specRoundChannel a c - 1 ≤ chan a c ∧ chan a c ≤ specRoundChannel a c := by
  rcases Nat.eq_zero_or_pos c with hc0 | hc1
  · subst hc0
    have hchan : chan a 0 = 0 := by simp [chan]
    have hspec : specRoundChannel a 0 = 0 := by
      unfold specRoundChannel
      have hz : (2 * (0 * 255) + a) / (2 * a) = 0 := Nat.div_eq_of_lt (by omega)
      rw [hz]
      simp
    rw [hchan, hspec]
    omega
  · -- the nonzero-channel case
    have hch := chan_eq a c (by omega)
    obtain ⟨A1, A2, A3, A4⟩ := fl32Frac_spec a 255 h1 (by omega)
      (by
        have h40 : (2 : ℕ) ^ 40 ≤ a * 2 ^ 40 := Nat.le_mul_of_pos_left _ h1
        omega)
      (by
        have hstep : a * 2 ^ 40 ≤ 255 * 2 ^ 40 := Nat.mul_le_mul_right _ ha
        omega)
      (by
        have hstep : a * 2 ^ 40 ≤ 255 * 2 ^ 40 := Nat.mul_le_mul_right _ ha
        omega)
    set mA := (fl32Frac a 255).1 with hmAdef
    set sA := (fl32Frac a 255).2 with hsAdef
    set P := (2 : ℕ) ^ sA with hPdef
    have hmAlo : 2 ^ 23 ≤ mA := by
      have k1 : 2 ^ 24 * 255 ≤ 2 * (a * P) := by omega
      have k2 : 2 * (a * P) ≤ 2 * mA * 255 + 255 := A4
      omega
    have hmAhi : mA ≤ 2 ^ 24 := by
      have k1 : 2 * mA * 255 ≤ 2 * (a * P) + 255 := A3
      omega
    have haPle : a * P ≤ 255 * P := Nat.mul_le_mul_right P ha
    have hPle : P ≤ a * P := Nat.le_mul_of_pos_left P h1
    have hPlo : 2 ^ 23 ≤ P := by omega
    have hPhi : P < 2 ^ 24 * 255 := by omega
    have hnV : c <<< sA = c * P := by rw [Nat.shiftLeft_eq, hPdef]
    rw [hnV] at hch
    have hcP255 : c * P ≤ 255 * P := Nat.mul_le_mul_right P (by omega)
    have hcPlt : c * P < 2 ^ 40 := by omega
    have hPcP : P ≤ c * P := Nat.le_mul_of_pos_left P hc1
    obtain ⟨V1, V2, V3, V4⟩ := fl32Frac_spec (c * P) mA
      (by omega) (by omega)
      (by
        have h40 : (2 : ℕ) ^ 40 ≤ c * P * 2 ^ 40 := Nat.le_mul_of_pos_left _ (by omega)
        omega)
      (by
        have hstep : c * P * 2 ^ 40 < 2 ^ 40 * 2 ^ 40 :=
          (Nat.mul_lt_mul_right (by positivity)).2 hcPlt
        have hstep2 : 2 ^ 23 * 2 ^ 64 ≤ mA * 2 ^ 64 := Nat.mul_le_mul_right _ hmAlo
        omega)
      (by
        have hstep : c * P * 2 ^ 40 < 2 ^ 40 * 2 ^ 40 :=
          (Nat.mul_lt_mul_right (by positivity)).2 hcPlt
        omega)
    set mV := (fl32Frac (c * P) mA).1 with hmVdef
    set sV := (fl32Frac (c * P) mA).2 with hsVdef
    set Q := (2 : ℕ) ^ sV with hQdef
    have hQpos : 0 < Q := by rw [hQdef]; positivity
    have hQlo : 16449 ≤ Q := by
      have k1 : c * P * Q ≤ a * P * Q := Nat.mul_le_mul_right Q (Nat.mul_le_mul_right P hc)
      have k2 : a * P * Q ≤ (2 ^ 24 * 255) * Q := Nat.mul_le_mul_right Q (by omega)
      have k3 : 2 ^ 23 * 2 ^ 23 ≤ 2 ^ 23 * mA := Nat.mul_le_mul_left _ hmAlo
      omega
    have hQhi : Q < 2 ^ 25 := by
      have k1 : P * Q ≤ c * P * Q := Nat.mul_le_mul_right Q hPcP
      have k2 : 2 ^ 23 * Q ≤ P * Q := Nat.mul_le_mul_right Q hPlo
      have k3 : 2 ^ 24 * mA ≤ 2 ^ 24 * 2 ^ 24 := Nat.mul_le_mul_left _ hmAhi
      omega
    set R := (2 * (c * 255) + a) / (2 * a) with hRdef
    have hapos : 0 < 2 * a := by omega
    have hR1 : R * (2 * a) ≤ 2 * (c * 255) + a := Nat.div_mul_le_self _ _
    have hR2 : 2 * (c * 255) + a < (R + 1) * (2 * a) := by
      have hdm := Nat.div_add_mod (2 * (c * 255) + a) (2 * a)
      rw [← hRdef] at hdm
      have hml := Nat.mod_lt (2 * (c * 255) + a) hapos
      have hexp : (R + 1) * (2 * a) = 2 * a * R + 2 * a := by ring
      rw [hexp]
      omega
    have hR255 : R ≤ 255 := by
      have hlt : R < 256 := by
        rw [hRdef, Nat.div_lt_iff_lt_mul hapos]
        omega
      omega
    -- the code channel is at most the rounded spec channel
    have hmVR : mV < (R + 1) * Q := by
      have ja : 2 * (c * 255) + a + 1 ≤ (R + 1) * (2 * a) := hR2
      have A4' : 2 * a * P ≤ 2 * mA * 255 + 255 := by
        calc 2 * a * P = 2 * (a * P) := by ring
          _ ≤ 2 * mA * 255 + 255 := A4
      have v1 : 4 * (a * c * P * Q) ≤ 1020 * (c * Q * mA) + 510 * (c * Q) := by
        have hm := Nat.mul_le_mul_right (2 * c * Q) A4'
        calc 4 * (a * c * P * Q) = 2 * a * P * (2 * c * Q) := by ring
          _ ≤ (2 * mA * 255 + 255) * (2 * c * Q) := hm
          _ = 1020 * (c * Q * mA) + 510 * (c * Q) := by ring
      have p1 : 510 * (c * Q) < 2 * (Q * mA) := by
        have k1 : c * Q ≤ 255 * Q := Nat.mul_le_mul_right Q (by omega)
        have k2 : Q * 2 ^ 23 ≤ Q * mA := Nat.mul_le_mul_left Q hmAlo
        omega
      have p2 : 2 * (a * mA) ≤ 2 * (a * Q * mA) := by
        have k1 : a ≤ a * Q := Nat.le_mul_of_pos_right a hQpos
        have k2 : a * mA ≤ a * Q * mA := Nat.mul_le_mul_right mA k1
        omega
      have v3 : (2 * (c * 255) + a + 1) * (2 * (Q * mA)) ≤ (R + 1) * (2 * a) * (2 * (Q * mA)) :=
        Nat.mul_le_mul_right _ ja
      have v3l : (2 * (c * 255) + a + 1) * (2 * (Q * mA)) =
          1020 * (c * Q * mA) + 2 * (a * Q * mA) + 2 * (Q * mA) := by ring
      have v3r : (R + 1) * (2 * a) * (2 * (Q * mA)) = (2 * (R + 1) * mA * Q) * (2 * a) := by ring
      have hS2 : (2 * (c * P * Q) + mA) * (2 * a) < (2 * (R + 1) * mA * Q) * (2 * a) := by
        have lhs_eq : (2 * (c * P * Q) + mA) * (2 * a) = 4 * (a * c * P * Q) + 2 * (a * mA) := by
          ring
        rw [lhs_eq, ← v3r]
        omega
      have hS : mV * (2 * mA) < (R + 1) * Q * (2 * mA) := by
        calc mV * (2 * mA) = 2 * mV * mA := by ring
          _ ≤ 2 * (c * P * Q) + mA := V3
          _ < 2 * (R + 1) * mA * Q := lt_of_mul_lt_mul_right hS2 (Nat.zero_le _)
          _ = (R + 1) * Q * (2 * mA) := by ring
      exact lt_of_mul_lt_mul_right hS (Nat.zero_le _)
    -- the code channel is at least one below the rounded spec channel
    have hG2 : R ≤ mV / Q + 1 := by
      rcases Nat.eq_zero_or_pos R with hR0 | hRpos
      · rw [hR0]
        exact Nat.zero_le _
      · obtain ⟨r, hr⟩ : ∃ r, R = r + 1 := ⟨R - 1, by omega⟩
        have h510 : 2 * a * r + a ≤ 2 * (c * 255) := by
          have hstep : (r + 1) * (2 * a) ≤ 2 * (c * 255) + a := by rw [← hr]; exact hR1
          have hexp : (r + 1) * (2 * a) = 2 * a * r + 2 * a := by ring
          omega
        have w1 : 4 * (a * r * Q * mA) + 2 * (a * Q * mA) ≤ 1020 * (c * Q * mA) := by
          have hm := Nat.mul_le_mul_right (2 * (Q * mA)) h510
          calc 4 * (a * r * Q * mA) + 2 * (a * Q * mA)
              = (2 * a * r + a) * (2 * (Q * mA)) := by ring
            _ ≤ 2 * (c * 255) * (2 * (Q * mA)) := hm
            _ = 1020 * (c * Q * mA) := by ring
        have w2 : 1020 * (c * Q * mA) ≤ 4 * (a * c * P * Q) + 510 * (c * Q) := by
          have hm := Nat.mul_le_mul_right (2 * c * Q) A3
          calc 1020 * (c * Q * mA) = 2 * mA * 255 * (2 * c * Q) := by ring
            _ ≤ (2 * (a * P) + 255) * (2 * c * Q) := hm
            _ = 4 * (a * c * P * Q) + 510 * (c * Q) := by ring
        have w3 : 510 * (c * Q) + 2 * (a * mA) ≤ 2 * (a * Q * mA) := by
          have core : 510 * Q + 2 * mA ≤ 2 * (Q * mA) := by
            have q1 : 16449 * mA ≤ Q * mA := Nat.mul_le_mul_right mA hQlo
            omega
          have hmul := Nat.mul_le_mul_left a core
          have hcQ : c * Q ≤ a * Q := Nat.mul_le_mul_right Q hc
          have hexp1 : a * (510 * Q + 2 * mA) = 510 * (a * Q) + 2 * (a * mA) := by ring
          have hexp2 : a * (2 * (Q * mA)) = 2 * (a * Q * mA) := by ring
          have hcQ' : 510 * (c * Q) ≤ 510 * (a * Q) := Nat.mul_le_mul_left _ hcQ
          omega
        have hdd2 : (2 * (r * Q * mA) + mA) * (2 * a) ≤ 2 * (c * P * Q) * (2 * a) := by
          have lhs_eq : (2 * (r * Q * mA) + mA) * (2 * a) =
              4 * (a * r * Q * mA) + 2 * (a * mA) := by ring
          have rhs_eq : 2 * (c * P * Q) * (2 * a) = 4 * (a * c * P * Q) := by ring
          rw [lhs_eq, rhs_eq]
          omega
        have hdd : 2 * (r * Q * mA) + mA ≤ 2 * (c * P * Q) :=
          Nat.le_of_mul_le_mul_right hdd2 hapos
        have k0 : 2 * (r * Q * mA) + mA ≤ 2 * mV * mA + mA := le_trans hdd V4
        have k1 : r * Q * (2 * mA) ≤ mV * (2 * mA) := by
          have lhs_eq : r * Q * (2 * mA) = 2 * (r * Q * mA) := by ring
          have rhs_eq : mV * (2 * mA) = 2 * mV * mA := by ring
          rw [lhs_eq, rhs_eq]
          omega
        have hrQ : r * Q ≤ mV := Nat.le_of_mul_le_mul_right k1 (by omega)
        have hrd : r ≤ mV / Q := (Nat.le_div_iff_mul_le hQpos).2 hrQ
        omega
    have hFR : mV / Q ≤ R := by
      have hlt : mV / Q < R + 1 := (Nat.div_lt_iff_lt_mul hQpos).2 hmVR
      omega
    have hchan : chan a c = mV / Q := by
      rw [hch, Nat.shiftRight_eq_div_pow, ← hQdef]
      exact min_eq_right (le_trans hFR hR255)
    have hspec : specRoundChannel a c = R := by
      unfold specRoundChannel
      rw [← hRdef]
      exact min_eq_right hR255
    rw [hchan, hspec]
    omega

/-! Structural facts about the conversion, shared by several theorems. -/

lemma chan_le_255 (a c : ℕ) : chan a c ≤ 255 := by
  unfold chan
  by_cases h : c = 0 <;> simp [h]

lemma convertPixel_length (p : ℕ) : (convertPixel p).length = 3 := by
  unfold convertPixel
  split <;> rfl

lemma convertPixel_triple (p : ℕ) : ∃ x y z, convertPixel p = [x, y, z] := by
  unfold convertPixel
  split
  · exact ⟨_, _, _, rfl⟩
  · exact ⟨_, _, _, rfl⟩

lemma renderData_cons (p : ℕ) (t : List ℕ) :
    renderData (p :: t) = convertPixel p ++ renderData t := by
  simp [renderData]

lemma renderData_append (l₁ l₂ : List ℕ) :
    renderData (l₁ ++ l₂) = renderData l₁ ++ renderData l₂ := by
  simp [renderData]

lemma renderData_length (buf : List ℕ) : (renderData buf).length = 3 * buf.length := by
  induction buf with
  | nil => rfl
  | cons p t ih =>
    rw [renderData_cons, List.length_append, convertPixel_length, ih, List.length_cons]
    ring

lemma renderData_pixel (buf : List ℕ) (i : ℕ) (hi : i < buf.length) :
    ((renderData buf).drop (3 * i)).take 3 = convertPixel (buf.get ⟨i, hi⟩) := by
  induction buf generalizing i with
  | nil => exact absurd hi (Nat.not_lt_zero i)
  | cons p t ih =>
    obtain ⟨x, y, z, hxyz⟩ := convertPixel_triple p
    cases i with
    | zero =>
      rw [renderData_cons]
      have hget : (p :: t).get ⟨0, hi⟩ = p := rfl
      rw [hget, hxyz]
      rfl
    | succ j =>
      have hj : j < t.length := Nat.lt_of_succ_lt_succ hi
      rw [renderData_cons, hxyz]
      have h3 : 3 * (j + 1) = 3 * j + 1 + 1 + 1 := by ring
      rw [h3]
      simp only [List.cons_append, List.drop_succ_cons, List.nil_append]
      exact ih j hj

lemma par_eq_seq (chunks : List (List ℕ)) :
    parRenderData chunks = renderData chunks.flatten := by
  induction chunks with
  | nil => rfl
  | cons c rest ih =>
    simp only [parRenderData, List.map_cons, List.flatten_cons, List.flatten] at *
    rw [ih, ← renderData_append]

set_option maxRecDepth 1000000
set_option maxHeartbeats 20000000

/-- Concrete values of the conversion, cross-checked against the program's
`f32` arithmetic (IEEE-754 binary32): e.g. a fully saturated channel with
alpha byte 1 comes out as 254, not 255, and alpha byte 2 with channel 1
(exact value 127.5) comes out as 127. -/
lemma chan_values :
    chan 2 1 = 127 ∧ chan 1 1 = 254 ∧ chan 3 2 = 170 ∧ chan 17 1 = 14 ∧
      chan 255 7 = 7 ∧ chan 255 255 = 255 ∧ chan 128 200 = 255 ∧
      chan 1 255 = 255 ∧ convertPixel 0x02010000 = [127, 0, 0] := by
  decide

/-- For a fully opaque pixel the division is by the exact value 1, so each
channel passes through unchanged. -/
lemma chan_alpha_full : ∀ c, c < 256 → chan 255 c = c := by decide

/-! The claims. -/

/-- C1, corrected statement.  For alpha `a = 0` the emitted triple is
`(0,0,0)` regardless of the color bytes, as claimed.  For `a ∈ [1,255]`
and a premultiplied channel `c ≤ a`, the emitted channel does NOT always
equal `round(c * 255 / a)` clamped to 255 (see the counterexample): it
equals that value or that value minus one, because the code truncates the
`f32` quotient `c / (a / 255.0)` instead of rounding the exact one. -/
theorem unpremultiply_near_round :
    (∀ p, p < 2 ^ 32 → (p >>> 24) &&& 255 = 0 → convertPixel p = [0, 0, 0]) ∧
      ∀ a c, 1 ≤ a → a ≤ 255 → c ≤ a →
        specRoundChannel a c - 1 ≤ chan a c ∧ chan a c ≤ specRoundChannel a c := by
  constructor
  · intro p _ h
    unfold convertPixel
    rw [if_pos h]
  · intro a c h1 h255 hc
    exact chan_near_round a c h1 h255 hc

/-- C1 witness: the theorem applied at the transparent pixel `0x00FF1020`
and at `a = 2`, `c = 1`. -/
theorem unpremultiply_near_round_witness :
    convertPixel 0x00FF1020 = [0, 0, 0] ∧
      specRoundChannel 2 1 - 1 ≤ chan 2 1 ∧ chan 2 1 ≤ specRoundChannel 2 1 :=
  ⟨unpremultiply_near_round.1 0x00FF1020 (by decide) (by decide),
    unpremultiply_near_round.2 2 1 (by decide) (by decide) (by decide)⟩

/-- C1 counterexample to the claim as stated: for alpha byte 2 and
premultiplied channel 1 the exact quotient is `1 * 255 / 2 = 127.5`, whose
rounding clamped to 255 is 128, but the emitted channel is 127 (the `f32`
quotient is slightly below 127.5 and is truncated). -/
theorem unpremultiply_round_cex :
    chan 2 1 ≠ specRoundChannel 2 1 ∧ chan 2 1 = 127 ∧ specRoundChannel 2 1 = 128 := by
  decide

/-- C2: the conversion is total over all 32-bit words — even where a
premultiplied channel byte exceeds the alpha byte it produces a defined
3-byte result (never panics; the division by zero is guarded by the
alpha-zero branch), and every emitted byte is in `[0, 255]`. -/
theorem convert_total_in_range (p : ℕ) (_hp : p < 2 ^ 32) :
    (convertPixel p).length = 3 ∧ ∀ b ∈ convertPixel p, b ≤ 255 := by
  refine ⟨convertPixel_length p, ?_⟩
  unfold convertPixel
  split
  · intro b hb
    simp only [List.mem_cons, List.not_mem_nil, or_false] at hb
    rcases hb with h | h | h <;> simp [h]
  · intro b hb
    simp only [List.mem_cons, List.not_mem_nil, or_false] at hb
    rcases hb with h | h | h <;> (subst h; exact chan_le_255 _ _)

/-- C2 witness: the theorem applied to the invariant-violating pixel
`0x01FF0000` (alpha byte 1, red byte 255). -/
theorem convert_total_in_range_witness :
    (convertPixel 0x01FF0000).length = 3 ∧ ∀ b ∈ convertPixel 0x01FF0000, b ≤ 255 :=
  convert_total_in_range 0x01FF0000 (by decide)

/-- C3: for a framebuffer of `w * h` packed words, the converted output has
length exactly `w * h * 3`, and it is in input pixel order: the 3 bytes at
offset `3 * i` are the conversion of word `i`. -/
theorem render_length_order (w h : ℕ) (buf : List ℕ) (hlen : buf.length = w * h) :
    (renderData buf).length = w * h * 3 ∧
      ∀ i, (hi : i < buf.length) →
        ((renderData buf).drop (3 * i)).take 3 = convertPixel (buf.get ⟨i, hi⟩) := by
  refine ⟨?_, fun i hi => renderData_pixel buf i hi⟩
  rw [renderData_length, hlen]; ring

/-- C3 witness: the theorem applied to a concrete 2-by-1 framebuffer. -/
theorem render_length_order_witness :
    (renderData [0xFF102030, 0x00000000]).length = 2 * 1 * 3 ∧
      ∀ i, (hi : i < ([0xFF102030, 0x00000000] : List ℕ).length) →
        ((renderData [0xFF102030, 0x00000000]).drop (3 * i)).take 3 =
          convertPixel (([0xFF102030, 0x00000000] : List ℕ).get ⟨i, hi⟩) :=
  render_length_order 2 1 [0xFF102030, 0x00000000] (by decide)

/-- C4: any parallel partition of the buffer into worker chunks, each
converted independently and collected in input order, yields exactly the
bytes of the single-threaded sequential conversion of the whole buffer. -/
theorem par_refines_seq (chunks : List (List ℕ)) :
    parRenderData chunks = renderData chunks.flatten :=
  par_eq_seq chunks

/-- C5: when the converted buffer's length does not match the dimensions
declared to the encoder, the pipeline returns `DimensionMismatch` and the
sink byte trace is empty — nothing was written before the error. -/
theorem dimension_mismatch_no_write (stream : EncoderCfg → ℕ → ℕ → List ℕ → List ℕ)
    (buf : List ℕ) (w h q : ℕ)
    (hne : (renderData buf).length ≠ castU16 w * castU16 h * 3) :
    renderChunked stream buf w h q = (Except.error EncodeError.dimensionMismatch, []) := by
  unfold renderChunked encodeModel
  rw [if_neg hne]

/-- C5 witness: an empty framebuffer declared as 1-by-1, under a concrete
encoding function. -/
theorem dimension_mismatch_no_write_witness :
    renderChunked (fun _ _ _ d => d) [] 1 1 75 =
      (Except.error EncodeError.dimensionMismatch, []) :=
  dimension_mismatch_no_write (fun _ _ _ d => d) [] 1 1 75 (by decide)

/-- C6: the conversion is deterministic — two executions on the same input
word sequence produce byte-identical output, even under different
scheduling (different partitions of the work into chunks). -/
theorem convert_deterministic (chunks₁ chunks₂ : List (List ℕ))
    (hsame : chunks₁.flatten = chunks₂.flatten) :
    parRenderData chunks₁ = parRenderData chunks₂ := by
  rw [par_eq_seq, par_eq_seq, hsame]

/-- C6 witness: two different partitions of the same two-pixel buffer. -/
theorem convert_deterministic_witness :
    parRenderData [[0xFF102030], [0x01FF0000]] = parRenderData [[0xFF102030, 0x01FF0000]] :=
  convert_deterministic [[0xFF102030], [0x01FF0000]] [[0xFF102030, 0x01FF0000]] rfl

/-- C7: on every invocation the encode stage receives a configuration with
optimized Huffman tables enabled — the pipeline always encodes with
`renderChunkedCfg q`, whose flag is `true` for every caller-supplied
quality; no parameter can turn it off. -/
theorem optimized_tables_always (q : ℕ) :
    (renderChunkedCfg q).optimizedHuffman = true ∧
      ∀ stream buf w h, renderChunked stream buf w h q =
        encodeModel stream (renderChunkedCfg q) (renderData buf) (castU16 w) (castU16 h) :=
  ⟨rfl, fun _ _ _ _ => rfl⟩

/-- C8: the quality reaching the encoder is the caller's value unchanged —
`Encoder::new` stores it verbatim, and the pipeline's configuration keeps
it verbatim, for every `q` (no clamp, no bounds check, no default). -/
theorem quality_passthrough (q : ℕ) :
    (encoderNew q).quality = q ∧ (renderChunkedCfg q).quality = q :=
  ⟨rfl, rfl⟩

/-- C9: for a fully opaque pixel (alpha byte 255) the conversion is the
identity on the color bytes: the binary32 value of `255 / 255.0` is
exactly 1, each division is exact, and neither the clamp nor the
truncation changes an exact byte value. -/
theorem opaque_identity (p : ℕ) (_hp : p < 2 ^ 32) (ha : (p >>> 24) &&& 255 = 255) :
    convertPixel p = [(p >>> 16) &&& 255, (p >>> 8) &&& 255, p &&& 255] := by
  unfold convertPixel
  rw [ha, if_neg (by decide)]
  have h16 : (p >>> 16) &&& 255 < 256 := Nat.lt_succ_of_le Nat.and_le_right
  have h8 : (p >>> 8) &&& 255 < 256 := Nat.lt_succ_of_le Nat.and_le_right
  have h0 : p &&& 255 < 256 := Nat.lt_succ_of_le Nat.and_le_right
  rw [chan_alpha_full _ h16, chan_alpha_full _ h8, chan_alpha_full _ h0]

/-- C9 witness: the theorem applied at the opaque pixel `0xFF102030`. -/
theorem opaque_identity_witness :
    convertPixel 0xFF102030 =
      [(0xFF102030 >>> 16) &&& 255, (0xFF102030 >>> 8) &&& 255, 0xFF102030 &&& 255] :=
  opaque_identity 0xFF102030 (by decide) (by decide)

/-- C10 counterexample to the claim as stated: a framebuffer of width
65536 (which exceeds 65535) and height 0 has `65536 * 0 = 0` words; the
declared dimensions are `(0, 0)`, and the converted buffer's length 0 DOES
equal `0 * 0 * 3`, so the declared dimensions still correspond to the
buffer's length there. -/
theorem dims_narrow_cex :
    65535 < 65536 ∧ castU16 65536 = 0 ∧
      (renderData (List.replicate (65536 * 0) 0)).length =
        castU16 65536 * castU16 0 * 3 := by
  refine ⟨by decide, by decide, ?_⟩
  rfl

/-- C10, corrected statement: `render_chunked` narrows the framebuffer's
dimensions with `as u16` before handing them to the encoder, so the
declared dimensions are the true ones reduced modulo 65536; and provided
both true dimensions are nonzero, a width or height above 65535 makes the
declared dimensions no longer correspond to the converted buffer's
length. -/
theorem dims_narrowed_u16 (w h : ℕ) (buf : List ℕ) (hlen : buf.length = w * h)
    (hw : 1 ≤ w) (hh : 1 ≤ h) (hbig : 65535 < w ∨ 65535 < h) :
    castU16 w = w % 65536 ∧ castU16 h = h % 65536 ∧
      (renderData buf).length ≠ castU16 w * castU16 h * 3 := by
  refine ⟨rfl, rfl, ?_⟩
  rw [renderData_length, hlen]
  have hprod : castU16 w * castU16 h < w * h := by
    rcases hbig with hbw | hbh
    · have h1 : castU16 w < w := by
        have := Nat.mod_lt w (y := 65536) (by omega)
        unfold castU16
        omega
      have h2 : castU16 h ≤ h := Nat.mod_le h 65536
      calc castU16 w * castU16 h ≤ castU16 w * h := Nat.mul_le_mul_left _ h2
        _ < w * h := Nat.mul_lt_mul_of_lt_of_le h1 (le_refl h) hh
    · have h1 : castU16 h < h := by
        have := Nat.mod_lt h (y := 65536) (by omega)
        unfold castU16
        omega
      have h2 : castU16 w ≤ w := Nat.mod_le w 65536
      calc castU16 w * castU16 h ≤ w * castU16 h := Nat.mul_le_mul_right _ h2
        _ < w * h := Nat.mul_lt_mul_of_le_of_lt (le_refl w) h1 hw
  omega

/-- C10 witness: a 65536-by-1 framebuffer. -/
theorem dims_narrowed_u16_witness :
    castU16 65536 = 65536 % 65536 ∧ castU16 1 = 1 % 65536 ∧
      (renderData (List.replicate 65536 0)).length ≠ castU16 65536 * castU16 1 * 3 :=
  dims_narrowed_u16 65536 1 (List.replicate 65536 0)
    (by rw [List.length_replicate, Nat.mul_one]) (by omega) (by omega)
    (Or.inl (by omega))

end Lavie
